import Mathlib

/-!
Verification of `install/install_spinnaker.py`.

The Python strings are modelled as `List Char`; each Python function that
the development covers is translated to a Lean definition bearing the same
name.  File contents are passed in and returned explicitly, and every
external command invocation (package manager, storage CLI, file moves) is
represented by an environment record supplying its exit code, so the
control flow of the source is reproduced exactly.
-/

namespace Spinnaker

/-- Python whitespace, as used by str.split() and str.strip(). -/
def isPySpace (c : Char) : Bool :=
  c = ' ' || c = '\t' || c = '\n' || c = '\r' || c = '\x0b' || c = '\x0c'

/-- Python str.strip(): drop leading and trailing whitespace. -/
def pyStrip (s : List Char) : List Char :=
  ((s.dropWhile isPySpace).reverse.dropWhile isPySpace).reverse

/-- Boolean test that `pat` occurs at the very start of `s`
    (the anchored part of a regex literal). -/
def leadsWith : List Char → List Char → Bool
  | [], _ => true
  | _ :: _, [] => false
  | a :: as, b :: bs => a = b && leadsWith as bs

/-- Python `hay.find(needle) >= 0`: `needle` occurs somewhere in `hay`. -/
def containsSub (needle : List Char) : List Char → Bool
  | [] => needle.isEmpty
  | c :: cs => leadsWith needle (c :: cs) || containsSub needle cs

/-- Python str.find for a single character: index of first occurrence, or -1. -/
def pyFind (c : Char) : List Char → Int
  | [] => -1
  | d :: ds =>
    if d = c then 0
    else
      let r := pyFind c ds
      if r = -1 then -1 else r + 1

/-- Python slice s[0:stop] where a negative stop counts from the end. -/
def pySliceTo (s : List Char) (stop : Int) : List Char :=
  if stop < 0 then s.take (s.length - (-stop).toNat) else s.take stop.toNat

/-- Options constructed by the argument parsers of the script
    (init_argument_parser plus the runtime-dependencies module).
    Only the fields the installer reads are modelled. -/
structure InstallOptions where
  spinnaker_dir : Option (List Char)
  release_path : List Char
  region : Option (List Char)
  spinnaker : Bool
  dependencies : Bool

/-- Source line 44: get_user_config_dir returns the fixed user directory. -/
def get_user_config_dir (_opts : InstallOptions) : List Char :=
  "/root/.spinnaker".toList

/-- Source line 57: options.spinnaker_dir or the default /opt/spinnaker.
    The Python `or` also replaces an empty string by the default. -/
def get_spinnaker_dir (opts : InstallOptions) : List Char :=
  match opts.spinnaker_dir with
  | some p => if p = [] then "/opt/spinnaker".toList else p
  | none => "/opt/spinnaker".toList

/-- Source line 49: the installation master config directory. -/
def get_config_install_dir (opts : InstallOptions) : List Char :=
  get_spinnaker_dir opts ++ "/config".toList

/-! ### ConfigPatcher: inject_spring_config_location (source lines 246-290) -/

/-- Literal part of the pattern in re.search of line 258. -/
def jvmKey : List Char := "\nDEFAULT_JVM_OPTS=".toList

/-- Split off the longest newline-free prefix: `some (line, rest)` when the
    input is line ++ newline ++ rest; `none` when no newline occurs. -/
def splitLine : List Char → Option (List Char × List Char)
  | [] => none
  | c :: cs =>
    if c = '\n' then some ([], cs)
    else
      match splitLine cs with
      | some (l, r) => some (c :: l, r)
      | none => none

/-- One anchored attempt of the regex of line 258 at the start of `s`:
    the literal key, then a nonempty newline-free captured group, then a
    newline. -/
def matchAt (s : List Char) : Option (List Char × List Char) :=
  if leadsWith jvmKey s then
    match splitLine (s.drop jvmKey.length) with
    | some (v, r) => if v.isEmpty then none else some (v, r)
    | none => none
  else none

/-- Leftmost match of the regex of line 258: `some (pre, value, rest)`
    decomposes the content as pre ++ jvmKey ++ value ++ newline ++ rest. -/
def findJvm : List Char → Option (List Char × List Char × List Char)
  | [] => none
  | c :: cs =>
    match matchAt (c :: cs) with
    | some (v, r) => some ([], v, r)
    | none =>
      match findJvm cs with
      | some (p, v, r) => some (c :: p, v, r)
      | none => none

/-- The idempotence probe of source line 263. -/
def dLoc : List Char := "-Dspring.config.location=".toList

/-- The directive text assembled at lines 272-277 from the hardcoded
    root=/opt/spinnaker/config and home=/root/.spinnaker. -/
def dLocFull : List Char :=
  "-Dspring.config.location=/opt/spinnaker/config/,/root/.spinnaker/".toList

/-- A configuration-location directive naming a config directory and then a
    user directory, in that order (shape of the format string on line 276). -/
def mkDirective (configDir userDir : List Char) : List Char :=
  dLoc ++ configDir ++ '/' :: ',' :: userDir ++ ['/']

/-- Source line 271: offset is 1 when the value starts with a quote. -/
def quoteOffset (v : List Char) : Nat :=
  match v with
  | c :: _ => if c = '\x27' || c = '\x22' then 1 else 0
  | [] => 0

/-- Source line 272: the quote wrapped around the inserted directive is the
    double quote when the value starts with a single quote, else the single
    quote. -/
def quoteFor (v : List Char) : Char :=
  match v with
  | '\x27' :: _ => '\x22'
  | _ => '\x27'

/-- The replacement option value assembled on lines 269-280. -/
def patchedValue (v : List Char) : List Char :=
  v.take (quoteOffset v)
    ++ (quoteFor v :: dLocFull ++ [quoteFor v])
    ++ ' ' :: v.drop (quoteOffset v)

/-- The full new file content written at lines 281-283. -/
def patchedContent (pre v rest : List Char) : List Char :=
  pre ++ jvmKey ++ patchedValue v ++ '\n' :: rest

/-- Observable outcome of inject_spring_config_location. -/
inductive PatchOutcome
  | skipped
  | structError
  | alreadyPatched (matched : List Char)
  | patched (newContent : List Char)
  deriving DecidableEq

/-- Name of the UI-only subsystem skipped on line 252. -/
def deckName : List Char := "deck".toList

/-- inject_spring_config_location (lines 246-290) as a content transformer:
    the file read on line 256 is passed in as `content`; `skipped` is the
    early return for deck; `structError` is the ValueError of line 260;
    `alreadyPatched` carries match.group(0) shown by the warning of lines
    264-266 and writes nothing; `patched` carries the content written back.
    The options argument is received, as in the source, but never read. -/
def inject_spring_config_location (_opts : InstallOptions) (subsystem : List Char)
    (content : List Char) : PatchOutcome :=
  if subsystem = deckName then .skipped
  else
    match findJvm content with
    | none => .structError
    | some (pre, v, rest) =>
      if containsSub dLoc v then .alreadyPatched (jvmKey ++ v ++ ['\n'])
      else .patched (patchedContent pre v rest)

/-- The file content present after inject_spring_config_location returns:
    unchanged unless a patch was written; `none` when the ValueError of
    line 260 is raised. -/
def patchFileResult (opts : InstallOptions) (subsystem content : List Char) :
    Option (List Char) :=
  match inject_spring_config_location opts subsystem content with
  | .patched nc => some nc
  | .structError => none
  | _ => some content

/-! ### PackageManifest: the release_config.cfg parse (source lines 307-310) -/

/-- Literal part of the pattern in re.search of line 309. -/
def pkgListKey : List Char := "\nPACKAGE_LIST=\"".toList

/-- The lazy group of the regex of line 309: `some (v, rest)` when the input
    is v ++ quote ++ rest with v free of quotes and newlines (a dot does not
    match a newline, and the lazy star stops at the first closing quote). -/
def splitUntilQuote : List Char → Option (List Char × List Char)
  | [] => none
  | c :: cs =>
    if c = '\x22' then some ([], cs)
    else if c = '\n' then none
    else
      match splitUntilQuote cs with
      | some (l, r) => some (c :: l, r)
      | none => none

/-- Search of the regex of line 309 over the whole content, returning the
    captured group of the first successful position. -/
def findPkgList : List Char → Option (List Char)
  | [] => none
  | c :: cs =>
    if leadsWith pkgListKey (c :: cs) then
      match splitUntilQuote ((c :: cs).drop pkgListKey.length) with
      | some (v, _) => some v
      | none => findPkgList cs
    else findPkgList cs

/-- Python str.split() with no separator: split on whitespace runs,
    discarding empty pieces. -/
def pySplit : List Char → List (List Char)
  | [] => []
  | c :: cs =>
    if isPySpace c then pySplit cs
    else
      (c :: cs.takeWhile (fun x => !isPySpace x)) ::
        pySplit (cs.dropWhile (fun x => !isPySpace x))
  termination_by s => s.length
  decreasing_by
    · simp
    · exact Nat.lt_succ_of_le (List.Sublist.length_le (List.dropWhile_sublist _))

/-- Failure of the manifest read: re.search returns None and the attribute
    access group(1) on line 310 raises. -/
inductive ManifestError
  | missingAssignment
  deriving DecidableEq

/-- The manifest extraction of source lines 307-310: search the config text
    for the delimited package list and split it on whitespace. -/
def loadManifest (content : List Char) : Except ManifestError (List (List Char)) :=
  match findPkgList content with
  | none => .error .missingAssignment
  | some v => .ok (pySplit v)

/-- A delimited package-list assignment is present somewhere in the text:
    the declarative reading of the pattern of line 309. -/
def HasPkgAssignment (content : List Char) : Prop :=
  ∃ p v r, content = p ++ pkgListKey ++ v ++ '\x22' :: r ∧
    '\x22' ∉ v ∧ '\n' ∉ v

/-! ### CopyJob and the join (source lines 117-166) -/

/-- One finished copy subprocess as seen by communicate(): Popen on line 147
    pipes only stderr, so stdout may be None. -/
structure CopyJob where
  returncode : Int
  stdout : Option (List Char)
  stderr : Option (List Char)
  deriving DecidableEq

/-- Python truthiness of an optional string: None and the empty string are
    falsy. -/
def truthy : Option (List Char) → Bool
  | none => false
  | some s => !s.isEmpty

/-- Line 164: output = stdout or stderr or the empty string. -/
def jobOutput (j : CopyJob) : List Char :=
  if truthy j.stdout then j.stdout.getD []
  else if truthy j.stderr then j.stderr.getD []
  else []

/-- The data embedded in the RuntimeError message of line 165:
    the exit code and the stripped captured output. -/
structure CopyError where
  code : Int
  output : List Char
  deriving DecidableEq

/-- check_wait_for_copy_complete (lines 151-166).  The first component lists
    the jobs on which communicate() was called, in order; the second is the
    RuntimeError data when a nonzero exit is encountered.  The loop raises as
    soon as it sees the first failing job, so later jobs are not joined. -/
def check_wait_for_copy_complete : List CopyJob → List CopyJob × Option CopyError
  | [] => ([], none)
  | j :: rest =>
    if j.returncode ≠ 0 then ([j], some ⟨j.returncode, pyStrip (jobOutput j)⟩)
    else
      let next := check_wait_for_copy_complete rest
      (j :: next.1, next.2)

/-! ### Option validation (source lines 169-243) -/

/-- External commands run while validating the release path. -/
inductive NetEvent
  | gsutilVersion
  | gsutilLs (path : List Char)
  | awsVersion
  | awsLs (path : List Char)
  deriving DecidableEq

/-- Exit codes of the probing commands and the local existence test. -/
structure NetEnv where
  localExists : List Char → Bool
  gsutilVersionExit : Int
  gsutilLsExit : List Char → Int
  awsVersionExit : Int
  awsLsExit : List Char → Int

/-- The errors raised during option validation. -/
inductive OptionsError
  | emptyReleasePath
  | gsutilMissing
  | googlePathNotFound
  | awsMissing
  | s3PathNotFound
  | unknownPath
  | missingRegion
  deriving DecidableEq

/-- URI scheme of the first object store (line 107). -/
def gsScheme : List Char := "gs://".toList

/-- URI scheme of the second object store (line 109). -/
def s3Scheme : List Char := "s3://".toList

/-- check_google_path (lines 169-187): version probe, then a listing. -/
def check_google_path (env : NetEnv) (path : List Char) :
    List NetEvent × Option OptionsError :=
  if env.gsutilVersionExit ≠ 0 then ([.gsutilVersion], some .gsutilMissing)
  else if env.gsutilLsExit path ≠ 0 then
    ([.gsutilVersion, .gsutilLs path], some .googlePathNotFound)
  else ([.gsutilVersion, .gsutilLs path], none)

/-- check_s3_path (lines 190-206): version probe, then a listing. -/
def check_s3_path (env : NetEnv) (path : List Char) :
    List NetEvent × Option OptionsError :=
  if env.awsVersionExit ≠ 0 then ([.awsVersion], some .awsMissing)
  else if env.awsLsExit path ≠ 0 then
    ([.awsVersion, .awsLs path], some .s3PathNotFound)
  else ([.awsVersion, .awsLs path], none)

/-- check_release_dir (lines 209-230). -/
def check_release_dir (env : NetEnv) (opts : InstallOptions) :
    List NetEvent × Option OptionsError :=
  if opts.release_path = [] then ([], some .emptyReleasePath)
  else if env.localExists opts.release_path then ([], none)
  else if leadsWith gsScheme opts.release_path then
    check_google_path env opts.release_path
  else if leadsWith s3Scheme opts.release_path then
    check_s3_path env opts.release_path
  else ([], some .unknownPath)

/-- Python truthiness of options.region on line 242: None or empty is falsy. -/
def regionFalsy (opts : InstallOptions) : Bool :=
  match opts.region with
  | none => true
  | some s => s.isEmpty

/-- check_options (lines 233-243).  The runtime-dependencies module is an
    external collaborator (spec section 1) and is modelled as a successful
    no-op; then the release dir is checked, and only afterwards the region
    requirement for the s3 scheme. -/
def check_options (env : NetEnv) (opts : InstallOptions) :
    List NetEvent × Option OptionsError :=
  match check_release_dir env opts with
  | (t, some e) => (t, some e)
  | (t, none) =>
    if leadsWith s3Scheme opts.release_path && regionFalsy opts then
      (t, some .missingRegion)
    else (t, none)

/-! ### PackageInstaller loop (source lines 293-337) -/

/-- Line 334: pkg[0:pkg.find(underscore)], the name handed to the patcher. -/
def componentOf (pkg : List Char) : List Char :=
  pySliceTo pkg (pyFind '_' pkg)

/-- External observations made by the install loop, in program order. -/
inductive InstallEvent
  | dpkgInstall (pkg : List Char) (exitCode : Int)
  | aptFix
  | patchComponent (comp : List Char)
  deriving DecidableEq

/-- Environment of the install loop: exit code of each direct dpkg install,
    exit code of the k-th dependency-repair command, the launch-script
    content of each component (None when the open of line 256 fails), and
    whether the chmod and mv of lines 285-290 succeed for a component. -/
structure PkgEnv where
  dpkgExit : List Char → Int
  aptFixExit : Nat → Int
  script : List Char → Option (List Char)
  mvOk : List Char → Bool

/-- Fatal errors of the install loop. -/
inductive InstallError
  | aptFixFailed (idx : Nat) (code : Int)
  | scriptMissing (comp : List Char)
  | optsPatternMissing (comp : List Char)
  | moveFailed (comp : List Char)
  deriving DecidableEq

/-- One call of inject_spring_config_location from line 334, with its file
    access and final write mediated by the environment: `none` means the
    loop continues, `some e` that the exception e aborts it. -/
def patchStep (env : PkgEnv) (opts : InstallOptions) (comp : List Char) :
    Option InstallError :=
  if comp = deckName then none
  else
    match env.script comp with
    | none => some (.scriptMissing comp)
    | some content =>
      match inject_spring_config_location opts comp content with
      | .structError => some (.optsPatternMissing comp)
      | .patched _ => if env.mvOk comp then none else some (.moveFailed comp)
      | _ => none

/-- The per-package loop at lines 326-337 and the final repair pass of line
    337, with `k` counting the dependency-repair invocations already made.
    Each package triggers dpkg -i (exit ignored, line 331), then apt-get
    install -f (exit fatal, line 332), then the config patch.  An exception
    anywhere stops the whole loop, including the final pass. -/
def installLoop (env : PkgEnv) (opts : InstallOptions) :
    List (List Char) → Nat → List InstallEvent × Option InstallError
  | [], k =>
    ([.aptFix],
      if env.aptFixExit k ≠ 0 then some (.aptFixFailed k (env.aptFixExit k))
      else none)
  | pkg :: rest, k =>
    let head := [InstallEvent.dpkgInstall pkg (env.dpkgExit pkg), InstallEvent.aptFix]
    if env.aptFixExit k ≠ 0 then (head, some (.aptFixFailed k (env.aptFixExit k)))
    else
      match patchStep env opts (componentOf pkg) with
      | some e => (head ++ [.patchComponent (componentOf pkg)], some e)
      | none =>
        let next := installLoop env opts rest (k + 1)
        (head ++ InstallEvent.patchComponent (componentOf pkg) :: next.1, next.2)

/-- Count of dependency-repair invocations in a trace. -/
def countAptFix : List InstallEvent → Nat
  | [] => 0
  | .aptFix :: es => countAptFix es + 1
  | _ :: es => countAptFix es

/-- The direct-install invocations of a trace, in order. -/
def dpkgSeq : List InstallEvent → List (List Char)
  | [] => []
  | .dpkgInstall p _ :: es => p :: dpkgSeq es
  | _ :: es => dpkgSeq es

/-- A trace with the ignored dpkg exit codes erased, to compare runs that
    differ only in direct-install failures. -/
def scrubDpkg : List InstallEvent → List InstallEvent
  | [] => []
  | .dpkgInstall p _ :: es => .dpkgInstall p 0 :: scrubDpkg es
  | e :: es => e :: scrubDpkg es

/-- The trace of a fully successful run: per package in manifest order a
    direct install, one repair pass and one patch call, then the final
    unconditional repair pass. -/
def canonicalTrace (env : PkgEnv) : List (List Char) → List InstallEvent
  | [] => [.aptFix]
  | p :: rest =>
    .dpkgInstall p (env.dpkgExit p) :: .aptFix ::
      .patchComponent (componentOf p) :: canonicalTrace env rest

/-! ### Local config provisioning (source lines 366-389) -/

/-- A filesystem: path to file content. -/
def FileSys : Type := List Char → Option (List Char)

/-- The IOError of the open on line 393 when the prototype is absent. -/
inductive ProvisionError
  | prototypeMissing (path : List Char)

/-- The provisioning step of install_spinnaker (lines 366-389): when the
    user override file exists nothing happens, otherwise the prototype is
    read and its content is copied to the user path.  Returns the resulting
    filesystem and whether a copy was performed. -/
def provisionLocalConfig (opts : InstallOptions) (fs : FileSys) :
    Except ProvisionError (FileSys × Bool) :=
  let localPath := get_user_config_dir opts ++ "/spinnaker-local.yml".toList
  match fs localPath with
  | some _ => .ok (fs, false)
  | none =>
    let protoPath :=
      get_config_install_dir opts ++ "/default-spinnaker-local.yml".toList
    match fs protoPath with
    | none => .error (.prototypeMissing protoPath)
    | some c => .ok (fun p => if p = localPath then some c else fs p, true)

/-! ### Concrete fixtures used by counterexamples and witnesses -/

/-- Options with every path left at its default. -/
def optsDefault : InstallOptions := ⟨none, "/release".toList, none, true, true⟩

/-- Options overriding the installation root. -/
def optsCustomRoot : InstallOptions :=
  ⟨some "/custom".toList, "/release".toList, none, true, true⟩

/-- Options naming an s3 release path and no region. -/
def optsS3NoRegion : InstallOptions :=
  ⟨none, "s3://bucket/rel".toList, none, true, true⟩

/-- Environment where every probed command succeeds and nothing exists
    locally. -/
def netEnvAllOk : NetEnv := ⟨fun _ => false, 0, fun _ => 0, 0, fun _ => 0⟩

/-- A launch script whose option value is single-quoted. -/
def scriptPre : List Char := "#!/bin/sh".toList

/-- The single-quoted option value of the sample script. -/
def scriptVal : List Char := '\x27' :: "-Xmx1g".toList ++ ['\x27']

/-- Text following the option line of the sample script. -/
def scriptRest : List Char := "exec java\n".toList

/-- A launch script whose option value is single-quoted. -/
def scriptSingleQuote : List Char :=
  scriptPre ++ jvmKey ++ scriptVal ++ '\n' :: scriptRest

/-- A filesystem already holding the user override config file. -/
def fsWithLocal : FileSys :=
  fun p =>
    if p = "/root/.spinnaker/spinnaker-local.yml".toList then
      some "stored: please keep".toList
    else none

/-- Install-loop environment in which every command succeeds and every
    component has a patchable launch script. -/
def pkgEnvOk : PkgEnv :=
  ⟨fun _ => 0, fun _ => 0, fun _ => some scriptSingleQuote, fun _ => true⟩

/-- Install-loop environment whose dependency-repair command always fails. -/
def pkgEnvAptBroken : PkgEnv :=
  ⟨fun _ => 0, fun _ => 100, fun _ => some scriptSingleQuote, fun _ => true⟩

/-- The three-package manifest of the spec example. -/
def threePkgs : List (List Char) :=
  [ "a.deb".toList, "b.deb".toList, "c.deb".toList ]

/-- Two copy jobs: the first failed with captured stderr, the second
    succeeded. -/
def jobsFailFirst : List CopyJob :=
  [⟨1, none, some " boom \n".toList⟩, ⟨0, none, none⟩]

end Spinnaker

namespace Spinnaker

/-! ### Basic lemmas about the scanning helpers -/

theorem leadsWith_refl_append (p t : List Char) : leadsWith p (p ++ t) = true := by
  induction p with
  | nil => rfl
  | cons a as ih => simp [leadsWith, ih]

theorem leadsWith_sound {p s : List Char} (h : leadsWith p s = true) :
    ∃ t, s = p ++ t := by
  induction p generalizing s with
  | nil => exact ⟨s, rfl⟩
  | cons a as ih =>
    cases s with
    | nil => simp [leadsWith] at h
    | cons b bs =>
      simp only [leadsWith, Bool.and_eq_true, decide_eq_true_eq] at h
      obtain ⟨t, ht⟩ := ih h.2
      exact ⟨t, by rw [List.cons_append, ← ht, h.1]⟩

theorem leadsWith_eq_take {p s : List Char} :
    leadsWith p s = true ↔ s.take p.length = p := by
  constructor
  · intro h
    obtain ⟨t, rfl⟩ := leadsWith_sound h
    simp [List.take_append_eq_append_take]
  · intro h
    have : s = p ++ s.drop p.length := by
      conv_lhs => rw [← List.take_append_drop p.length s, h]
    rw [this]
    exact leadsWith_refl_append _ _

theorem containsSub_of_append (n x y : List Char) :
    containsSub n (x ++ (n ++ y)) = true := by
  induction x with
  | nil =>
    cases hn : n with
    | nil =>
      cases y with
      | nil => rfl
      | cons c cs => simp [containsSub, leadsWith]
    | cons m ms =>
      have : leadsWith n (n ++ y) = true := leadsWith_refl_append n y
      rw [hn] at this
      simp only [List.cons_append] at this
      simp [hn, containsSub, this]
  | cons c cs ih => simp [containsSub, ih]

/-! ### Lemmas on pyFind and componentOf -/

theorem pyFind_eq_neg_one {c : Char} {l : List Char} (h : c ∉ l) :
    pyFind c l = -1 := by
  induction l with
  | nil => rfl
  | cons d ds ih =>
    have hd : ¬ d = c := fun he => h (he ▸ List.mem_cons_self d ds)
    have hm : c ∉ ds := fun hm => h (List.mem_cons_of_mem d hm)
    simp [pyFind, hd, ih hm]

theorem pyFind_nonneg {c : Char} {l : List Char} (h : c ∈ l) :
    0 ≤ pyFind c l := by
  induction l with
  | nil => cases h
  | cons d ds ih =>
    by_cases hd : d = c
    · simp [pyFind, hd]
    · have hm : c ∈ ds := by
        cases List.mem_cons.mp h with
        | inl he => exact absurd he.symm hd
        | inr hm => exact hm
      have := ih hm
      by_cases hz : pyFind c ds = -1
      · omega
      · simp only [pyFind, hd, if_false, hz, if_neg hz]
        omega

theorem componentOf_of_mem {pkg : List Char} (h : '_' ∈ pkg) :
    componentOf pkg = pkg.takeWhile (fun c => c ≠ '_') := by
  induction pkg with
  | nil => cases h
  | cons d ds ih =>
    by_cases hd : d = '_'
    · subst hd
      simp [componentOf, pyFind, pySliceTo, List.takeWhile]
    · have hm : '_' ∈ ds := by
        cases List.mem_cons.mp h with
        | inl he => exact absurd he.symm hd
        | inr hm => exact hm
      have hnn : 0 ≤ pyFind '_' ds := pyFind_nonneg hm
      have hz : ¬ pyFind '_' ds = -1 := by omega
      have hstep : pyFind '_' (d :: ds) = pyFind '_' ds + 1 := by
        simp [pyFind, hd, hz]
      have ht : (pyFind '_' ds + 1).toNat = (pyFind '_' ds).toNat + 1 := by omega
      have hpos : ¬ pyFind '_' ds + 1 < 0 := by omega
      have hneg : ¬ pyFind '_' ds < 0 := by omega
      have ihs : ds.take (pyFind '_' ds).toNat = ds.takeWhile (fun c => c ≠ '_') := by
        have := ih hm
        simpa [componentOf, pySliceTo, hneg] using this
      simp [componentOf, pySliceTo, hstep, hpos, ht, List.takeWhile, hd, ihs]

theorem componentOf_of_not_mem {pkg : List Char} (h : '_' ∉ pkg) :
    componentOf pkg = pkg.dropLast := by
  have hf : pyFind '_' pkg = -1 := pyFind_eq_neg_one h
  simp [componentOf, hf, pySliceTo, List.dropLast_eq_take]

/-! ### C10: component name derived from the package filename -/

/-- C10 counterexample: for a filename with no underscore the code passes
    the filename with its final character removed, not the full filename
    that the substring-before-first-underscore reading predicts. -/
theorem componentOf_counterexample :
    componentOf "clouddriver.deb".toList = "clouddriver.de".toList ∧
    componentOf "clouddriver.deb".toList ≠ "clouddriver.deb".toList := by
  decide

/-- C10 amended: when the filename contains an underscore, the component
    name passed to the config patcher is the substring strictly before the
    first underscore; when it contains none, Python pkg[0:pkg.find] with the
    find result -1 yields the filename minus its final character. -/
theorem componentOf_spec (pkg : List Char) :
    ('_' ∈ pkg → componentOf pkg = pkg.takeWhile (fun c => c ≠ '_')) ∧
    ('_' ∉ pkg → componentOf pkg = pkg.dropLast) :=
  ⟨componentOf_of_mem, componentOf_of_not_mem⟩

/-- Witness for componentOf_spec at two concrete filenames. -/
theorem componentOf_spec_witness :
    componentOf "clouddriver_1.0_all.deb".toList =
      ( "clouddriver_1.0_all.deb".toList.takeWhile (fun c => c ≠ '_')) ∧
    componentOf "clouddriver.deb".toList = "clouddriver.deb".toList.dropLast :=
  ⟨(componentOf_spec "clouddriver_1.0_all.deb".toList).1 (by decide),
   (componentOf_spec "clouddriver.deb".toList).2 (by decide)⟩

/-! ### C9: provisioning is a no-op when the user file exists -/

/-- C9: when the user override config file already exists, the provisioning
    step returns the filesystem unchanged (so neither the user file nor the
    prototype is touched), reports that no copy was performed, and raises no
    error. -/
theorem provision_noop_of_exists (opts : InstallOptions) (fs : FileSys)
    (c : List Char)
    (h : fs (get_user_config_dir opts ++ "/spinnaker-local.yml".toList) = some c) :
    provisionLocalConfig opts fs = .ok (fs, false) := by
  simp only [provisionLocalConfig, h]

/-- Witness for provision_noop_of_exists on a concrete filesystem. -/
theorem provision_noop_witness :
    provisionLocalConfig optsDefault fsWithLocal = .ok (fsWithLocal, false) :=
  provision_noop_of_exists optsDefault fsWithLocal "stored: please keep".toList
    (by decide)

/-! ### C1: joining the copy jobs -/

/-- C1 counterexample: with a failing first job and a pending second job,
    check_wait_for_copy_complete raises after joining only the first job,
    so the second is never joined, refuting the join-all-before-raise part
    of the claim; the error does carry the first failing exit code and
    stripped output. -/
theorem check_wait_counterexample :
    (check_wait_for_copy_complete jobsFailFirst).1 ≠ jobsFailFirst ∧
    (check_wait_for_copy_complete jobsFailFirst).2 =
      some ⟨1, "boom".toList⟩ := by
  decide

/-- C1 amended: jobs are joined sequentially in submission order; when all
    succeed, every job is joined and no error is raised; when some job
    fails, the error is raised as soon as the first failing job (in
    submission order) is joined, carrying its exit code and stripped
    captured output, and the jobs after it are not joined. -/
theorem check_wait_spec :
    (∀ jobs, (∀ x ∈ jobs, x.returncode = 0) →
      check_wait_for_copy_complete jobs = (jobs, none)) ∧
    (∀ pre j post, (∀ x ∈ pre, x.returncode = 0) → j.returncode ≠ 0 →
      check_wait_for_copy_complete (pre ++ j :: post) =
        (pre ++ [j], some ⟨j.returncode, pyStrip (jobOutput j)⟩)) := by
  constructor
  · intro jobs h
    induction jobs with
    | nil => rfl
    | cons x rest ih =>
      have hx : x.returncode = 0 := h x (List.mem_cons_self x rest)
      have hrest := ih (fun y hy => h y (List.mem_cons_of_mem x hy))
      simp [check_wait_for_copy_complete, hx, hrest]
  · intro pre j post hpre hj
    induction pre with
    | nil => simp [check_wait_for_copy_complete, hj]
    | cons x rest ih =>
      have hx : x.returncode = 0 := hpre x (List.mem_cons_self x rest)
      have hrest := ih (fun y hy => hpre y (List.mem_cons_of_mem x hy))
      simp [check_wait_for_copy_complete, hx, hrest]

/-- Witness for check_wait_spec: all-success batch and a mid-batch failure. -/
theorem check_wait_spec_witness :
    check_wait_for_copy_complete [⟨0, none, none⟩, ⟨0, none, none⟩] =
      ([⟨0, none, none⟩, ⟨0, none, none⟩], none) ∧
    check_wait_for_copy_complete
        [⟨0, none, none⟩, ⟨2, none, some " why \n".toList⟩, ⟨0, none, none⟩] =
      ([⟨0, none, none⟩, ⟨2, none, some " why \n".toList⟩],
        some ⟨2, "why".toList⟩) := by
  constructor
  · exact check_wait_spec.1 [⟨0, none, none⟩, ⟨0, none, none⟩] (by decide)
  · have := check_wait_spec.2 [⟨0, none, none⟩]
      ⟨2, none, some " why \n".toList⟩ [⟨0, none, none⟩] (by decide) (by decide)
    simpa using this

/-! ### C2: region validation versus network activity -/

theorem s3Scheme_cons : s3Scheme = 's' :: '3' :: ':' :: '/' :: '/' :: [] := by decide

theorem gsScheme_cons : gsScheme = 'g' :: 's' :: ':' :: '/' :: '/' :: [] := by decide

/-- C2 counterexample: on an s3 release path with no region, validation does
    raise the missing-region error, but only after the version probe and the
    listing of the path have both been run, refuting the claim that the
    error precedes any network operation. -/
theorem check_options_counterexample :
    check_options netEnvAllOk optsS3NoRegion =
      ([.awsVersion, .awsLs "s3://bucket/rel".toList], some .missingRegion) ∧
    ([NetEvent.awsVersion, .awsLs "s3://bucket/rel".toList] ≠ ([] : List NetEvent)) := by
  decide

/-- C2 amended: for an s3 release path that does not exist locally, with the
    client tool present and the listing succeeding, a falsy region makes
    option validation fail with the missing-region configuration error, but
    only after the client-tool version probe and the path listing have run;
    the error is still raised within option validation, before any copy. -/
theorem check_options_region_after_listing (env : NetEnv) (opts : InstallOptions)
    (h1 : leadsWith s3Scheme opts.release_path = true)
    (h2 : regionFalsy opts = true)
    (h3 : env.localExists opts.release_path = false)
    (h4 : env.awsVersionExit = 0)
    (h5 : env.awsLsExit opts.release_path = 0) :
    check_options env opts =
      ([.awsVersion, .awsLs opts.release_path], some .missingRegion) := by
  have hne : ¬ opts.release_path = [] := by
    intro he
    rw [he] at h1
    exact absurd h1 (by decide)
  have hgs : leadsWith gsScheme opts.release_path = false := by
    obtain ⟨t, ht⟩ := leadsWith_sound h1
    rw [s3Scheme_cons] at ht
    rw [ht, gsScheme_cons]
    simp [leadsWith]
  simp [check_options, check_release_dir, check_s3_path, hne, h3, hgs, h1, h4, h5, h2]

/-- Witness for check_options_region_after_listing. -/
theorem check_options_region_witness :
    check_options netEnvAllOk optsS3NoRegion =
      ([.awsVersion, .awsLs optsS3NoRegion.release_path], some .missingRegion) :=
  check_options_region_after_listing netEnvAllOk optsS3NoRegion
    (by decide) (by decide) rfl rfl rfl

/-! ### Trace bookkeeping lemmas for the install loop -/

theorem countAptFix_append (a b : List InstallEvent) :
    countAptFix (a ++ b) = countAptFix a + countAptFix b := by
  induction a with
  | nil => simp [countAptFix]
  | cons e es ih => cases e <;> simp [countAptFix, ih] <;> omega

theorem dpkgSeq_append (a b : List InstallEvent) :
    dpkgSeq (a ++ b) = dpkgSeq a ++ dpkgSeq b := by
  induction a with
  | nil => simp [dpkgSeq]
  | cons e es ih => cases e <;> simp [dpkgSeq, ih]

theorem scrubDpkg_append (a b : List InstallEvent) :
    scrubDpkg (a ++ b) = scrubDpkg a ++ scrubDpkg b := by
  induction a with
  | nil => simp [scrubDpkg]
  | cons e es ih => cases e <;> simp [scrubDpkg, ih]

/-- Successful runs of the loop produce the canonical trace: per package a
    direct install, a repair pass and a patch, then one final repair pass. -/
theorem installLoop_success_shape (env : PkgEnv) (opts : InstallOptions) :
    ∀ pkgs k tr, installLoop env opts pkgs k = (tr, none) →
      tr = canonicalTrace env pkgs := by
  intro pkgs
  induction pkgs with
  | nil =>
    intro k tr h
    have := congrArg Prod.fst h
    simp only [installLoop] at this
    simp [← this, canonicalTrace]
  | cons p rest ih =>
    intro k tr h
    simp only [installLoop] at h
    split at h
    · exact absurd (congrArg Prod.snd h) (by simp)
    · split at h
      · exact absurd (congrArg Prod.snd h) (by simp)
      · have hsnd := congrArg Prod.snd h
        simp only at hsnd
        have hrec : installLoop env opts rest (k + 1) =
            ((installLoop env opts rest (k + 1)).1, none) := by
          rw [← hsnd]
        have hfst := congrArg Prod.fst h
        simp only at hfst
        rw [← hfst, ih (k + 1) _ hrec]
        simp [canonicalTrace]

theorem dpkgSeq_canonical (env : PkgEnv) (pkgs : List (List Char)) :
    dpkgSeq (canonicalTrace env pkgs) = pkgs := by
  induction pkgs with
  | nil => simp [canonicalTrace, dpkgSeq]
  | cons p rest ih => simp [canonicalTrace, dpkgSeq, ih]

theorem countAptFix_canonical (env : PkgEnv) (pkgs : List (List Char)) :
    countAptFix (canonicalTrace env pkgs) = pkgs.length + 1 := by
  induction pkgs with
  | nil => simp [canonicalTrace, countAptFix]
  | cons p rest ih => simp [canonicalTrace, countAptFix, ih]

/-- C5: in a successful run the packages are direct-installed sequentially
    in manifest order, and the dependency-repair command runs once after
    each package plus one final time, hence length-plus-one times. -/
theorem installLoop_manifest_order (env : PkgEnv) (opts : InstallOptions)
    (pkgs : List (List Char)) (tr : List InstallEvent)
    (h : installLoop env opts pkgs 0 = (tr, none)) :
    tr = canonicalTrace env pkgs ∧
    dpkgSeq tr = pkgs ∧
    countAptFix tr = pkgs.length + 1 := by
  have hshape := installLoop_success_shape env opts pkgs 0 tr h
  exact ⟨hshape, by rw [hshape, dpkgSeq_canonical],
    by rw [hshape, countAptFix_canonical]⟩

/-- Witness for installLoop_manifest_order on the three-package manifest. -/
theorem installLoop_manifest_order_witness :
    dpkgSeq (installLoop pkgEnvOk optsDefault threePkgs 0).1 = threePkgs ∧
    countAptFix (installLoop pkgEnvOk optsDefault threePkgs 0).1 = 3 + 1 := by
  have h : installLoop pkgEnvOk optsDefault threePkgs 0 =
      ((installLoop pkgEnvOk optsDefault threePkgs 0).1, none) := by decide
  obtain ⟨-, h2, h3⟩ := installLoop_manifest_order pkgEnvOk optsDefault threePkgs _ h
  exact ⟨h2, h3⟩

/-! ### C6: direct-install failures swallowed, repair failures fatal -/

theorem patchStep_dpkg_irrelevant (env : PkgEnv) (d : List Char → Int)
    (opts : InstallOptions) (c : List Char) :
    patchStep { env with dpkgExit := d } opts c = patchStep env opts c := rfl

/-- C6: changing every direct-install exit code changes neither the outcome
    of the loop nor its trace beyond the recorded codes, while a nonzero
    dependency-repair exit aborts the loop on the spot with an error built
    from that exit code. -/
theorem dpkg_swallowed_aptFix_fatal :
    (∀ (env : PkgEnv) (d : List Char → Int) (opts : InstallOptions)
        (pkgs : List (List Char)) (k : Nat),
      (installLoop { env with dpkgExit := d } opts pkgs k).2 =
        (installLoop env opts pkgs k).2 ∧
      scrubDpkg (installLoop { env with dpkgExit := d } opts pkgs k).1 =
        scrubDpkg (installLoop env opts pkgs k).1) ∧
    (∀ (env : PkgEnv) (opts : InstallOptions) (pkg : List Char)
        (rest : List (List Char)) (k : Nat), env.aptFixExit k ≠ 0 →
      installLoop env opts (pkg :: rest) k =
        ([.dpkgInstall pkg (env.dpkgExit pkg), .aptFix],
          some (.aptFixFailed k (env.aptFixExit k)))) := by
  constructor
  · intro env d opts pkgs
    induction pkgs with
    | nil => intro k; exact ⟨rfl, rfl⟩
    | cons p rest ih =>
      intro k
      by_cases haf : env.aptFixExit k = 0
      · have hcond : ¬ env.aptFixExit k ≠ 0 := by omega
        cases hps : patchStep env opts (componentOf p) with
        | some e =>
          simp [installLoop, hcond, patchStep_dpkg_irrelevant, hps, scrubDpkg]
        | none =>
          have := ih (k + 1)
          simp [installLoop, hcond, patchStep_dpkg_irrelevant, hps, scrubDpkg,
            scrubDpkg_append, this.1, this.2]
      · have hcond : env.aptFixExit k ≠ 0 := haf
        simp [installLoop, hcond, scrubDpkg]
  · intro env opts pkg rest k h
    simp [installLoop, h]

/-- Witness for dpkg_swallowed_aptFix_fatal: a run with failing direct
    installs has the same outcome as the all-success run, and a failing
    repair pass aborts at the first package. -/
theorem dpkg_swallowed_aptFix_fatal_witness :
    (installLoop { pkgEnvOk with dpkgExit := fun _ => 7 } optsDefault threePkgs 0).2 =
      (installLoop pkgEnvOk optsDefault threePkgs 0).2 ∧
    installLoop pkgEnvAptBroken optsDefault
        ( "a.deb".toList :: "b.deb".toList :: "c.deb".toList :: []) 0 =
      ([.dpkgInstall "a.deb".toList 0, .aptFix], some (.aptFixFailed 0 100)) := by
  constructor
  · exact (dpkg_swallowed_aptFix_fatal.1 pkgEnvOk (fun _ => 7) optsDefault threePkgs 0).1
  · have := dpkg_swallowed_aptFix_fatal.2 pkgEnvAptBroken optsDefault
      "a.deb".toList ( "b.deb".toList :: "c.deb".toList :: []) 0 (by decide)
    simpa [pkgEnvAptBroken] using this

/-! ### C8: manifest loading fails when the assignment is absent -/

theorem splitUntilQuote_append {v : List Char} (h1 : '\x22' ∉ v)
    (h2 : '\n' ∉ v) (r : List Char) :
    splitUntilQuote (v ++ '\x22' :: r) = some (v, r) := by
  induction v with
  | nil => simp [splitUntilQuote]
  | cons c cs ih =>
    have hc1 : ¬ c = '\x22' := fun he => h1 (he ▸ List.mem_cons_self c cs)
    have hc2 : ¬ c = '\n' := fun he => h2 (he ▸ List.mem_cons_self c cs)
    have ihr := ih (fun hm => h1 (List.mem_cons_of_mem c hm))
      (fun hm => h2 (List.mem_cons_of_mem c hm))
    simp [splitUntilQuote, hc1, hc2, ihr]

theorem splitUntilQuote_sound : ∀ {s v r : List Char},
    splitUntilQuote s = some (v, r) →
    s = v ++ '\x22' :: r ∧ '\x22' ∉ v ∧ '\n' ∉ v := by
  intro s
  induction s with
  | nil => intro v r h; simp [splitUntilQuote] at h
  | cons c cs ih =>
    intro v r h
    by_cases hc1 : c = '\x22'
    · simp [splitUntilQuote, hc1] at h
      obtain ⟨hv, hr⟩ := h
      subst hc1
      subst hv
      subst hr
      exact ⟨rfl, by simp, by simp⟩
    · by_cases hc2 : c = '\n'
      · simp [splitUntilQuote, hc1, hc2] at h
      · simp only [splitUntilQuote, if_neg hc1, if_neg hc2] at h
        cases hs : splitUntilQuote cs with
        | none => rw [hs] at h; simp at h
        | some pr =>
          obtain ⟨l, rr⟩ := pr
          rw [hs] at h
          simp only [Option.some.injEq, Prod.mk.injEq] at h
          obtain ⟨hv, hr⟩ := h
          obtain ⟨he, hq, hn⟩ := ih hs
          subst hr
          rw [← hv]
          refine ⟨by rw [he]; simp, ?_, ?_⟩
          · intro hm
            cases List.mem_cons.mp hm with
            | inl hx => exact hc1 hx.symm
            | inr hx => exact hq hx
          · intro hm
            cases List.mem_cons.mp hm with
            | inl hx => exact hc2 hx.symm
            | inr hx => exact hn hx

theorem findPkgList_sound : ∀ {content v : List Char},
    findPkgList content = some v →
    ∃ p r, content = p ++ pkgListKey ++ v ++ '\x22' :: r ∧
      '\x22' ∉ v ∧ '\n' ∉ v := by
  intro content
  induction content with
  | nil => intro v h; simp [findPkgList] at h
  | cons c cs ih =>
    intro v h
    by_cases hl : leadsWith pkgListKey (c :: cs) = true
    · rw [findPkgList, if_pos hl] at h
      obtain ⟨t, ht⟩ := leadsWith_sound hl
      cases hs : splitUntilQuote ((c :: cs).drop pkgListKey.length) with
      | none =>
        rw [hs] at h
        obtain ⟨p, r, he, hq, hn⟩ := ih h
        exact ⟨c :: p, r, by rw [he]; simp, hq, hn⟩
      | some pr =>
        obtain ⟨v₀, r₀⟩ := pr
        rw [hs] at h
        simp only [Option.some.injEq] at h
        subst h
        rw [ht, List.drop_left] at hs
        obtain ⟨he, hq, hn⟩ := splitUntilQuote_sound hs
        exact ⟨[], r₀, by rw [ht, he]; simp, hq, hn⟩
    · rw [findPkgList, if_neg hl] at h
      obtain ⟨p, r, he, hq, hn⟩ := ih h
      exact ⟨c :: p, r, by rw [he]; simp, hq, hn⟩

theorem pkgListKey_cons : pkgListKey = '\n' :: "PACKAGE_LIST=\"".toList := by decide

theorem findPkgList_complete (p : List Char) {v : List Char} (r : List Char)
    (h1 : '\x22' ∉ v) (h2 : '\n' ∉ v) :
    (findPkgList (p ++ (pkgListKey ++ (v ++ '\x22' :: r)))).isSome = true := by
  induction p with
  | nil =>
    rw [List.nil_append]
    have hshape : pkgListKey ++ (v ++ '\x22' :: r) =
        '\n' :: ( "PACKAGE_LIST=\"".toList ++ (v ++ '\x22' :: r)) := by
      rw [pkgListKey_cons, List.cons_append]
    have hl : leadsWith pkgListKey
        ('\n' :: ( "PACKAGE_LIST=\"".toList ++ (v ++ '\x22' :: r))) = true := by
      rw [← hshape]
      exact leadsWith_refl_append _ _
    have hd : List.drop pkgListKey.length
        ('\n' :: ( "PACKAGE_LIST=\"".toList ++ (v ++ '\x22' :: r))) =
        v ++ '\x22' :: r := by
      rw [← hshape]
      exact List.drop_left _ _
    rw [hshape, findPkgList, if_pos hl, hd, splitUntilQuote_append h1 h2]
    simp
  | cons c cs ih =>
    rw [List.cons_append, findPkgList]
    split
    · cases hs : splitUntilQuote ((c :: (cs ++ (pkgListKey ++ (v ++ '\x22' :: r)))).drop
          pkgListKey.length) with
      | none => simpa using ih
      | some pr => simp
    · exact ih

/-- C8: when no delimited package-list assignment occurs anywhere in the
    release-config text, manifest loading fails with the parse failure of
    the missing assignment; in particular it does not return a list. -/
theorem loadManifest_error_of_no_assignment (content : List Char)
    (h : ¬ HasPkgAssignment content) :
    loadManifest content = .error .missingAssignment := by
  cases hf : findPkgList content with
  | none => simp [loadManifest, hf]
  | some v =>
    obtain ⟨p, r, he, hq, hn⟩ := findPkgList_sound hf
    exact absurd ⟨p, v, r, he, hq, hn⟩ h

/-- Witness for loadManifest_error_of_no_assignment on a config text with
    no package-list assignment. -/
theorem loadManifest_error_witness :
    loadManifest "\nNOT_THE_LIST=\"a.deb\"\n".toList = .error .missingAssignment := by
  refine loadManifest_error_of_no_assignment _ ?_
  rintro ⟨p, v, r, he, hq, hn⟩
  have hs := findPkgList_complete p r hq hn
  have he2 : "\nNOT_THE_LIST=\"a.deb\"\n".toList =
      p ++ (pkgListKey ++ (v ++ '\x22' :: r)) := by
    rw [he]
    simp [List.append_assoc]
  rw [← he2] at hs
  exact absurd hs (by decide)

/-! ### Lemmas on the launch-script pattern match -/

theorem splitLine_append {l : List Char} (h : '\n' ∉ l) (r : List Char) :
    splitLine (l ++ '\n' :: r) = some (l, r) := by
  induction l with
  | nil => simp [splitLine]
  | cons c cs ih =>
    have hc : ¬ c = '\n' := fun he => h (he ▸ List.mem_cons_self c cs)
    have ihr := ih (fun hm => h (List.mem_cons_of_mem c hm))
    simp [splitLine, hc, ihr]

theorem splitLine_sound : ∀ {s l r : List Char},
    splitLine s = some (l, r) → s = l ++ '\n' :: r ∧ '\n' ∉ l := by
  intro s
  induction s with
  | nil => intro l r h; simp [splitLine] at h
  | cons c cs ih =>
    intro l r h
    by_cases hc : c = '\n'
    · simp [splitLine, hc] at h
      obtain ⟨hl, hr⟩ := h
      subst hc; subst hl; subst hr
      exact ⟨rfl, by simp⟩
    · simp only [splitLine, if_neg hc] at h
      cases hs : splitLine cs with
      | none => rw [hs] at h; simp at h
      | some pr =>
        obtain ⟨l₀, r₀⟩ := pr
        rw [hs] at h
        simp only [Option.some.injEq, Prod.mk.injEq] at h
        obtain ⟨hl, hr⟩ := h
        obtain ⟨he, hn⟩ := ih hs
        subst hr
        rw [← hl]
        refine ⟨by rw [he]; simp, ?_⟩
        intro hm
        cases List.mem_cons.mp hm with
        | inl hx => exact hc hx.symm
        | inr hx => exact hn hx

/-- The line captured before the first newline depends only on the text up
    to that newline, and such a split always succeeds. -/
theorem splitLine_stable : ∀ (u w w' : List Char),
    (splitLine (u ++ '\n' :: w)).isSome = true ∧
    (splitLine (u ++ '\n' :: w)).map Prod.fst =
      (splitLine (u ++ '\n' :: w')).map Prod.fst := by
  intro u
  induction u with
  | nil => intro w w'; simp [splitLine]
  | cons c cs ih =>
    intro w w'
    by_cases hc : c = '\n'
    · simp [splitLine, hc]
    · obtain ⟨h1, h2⟩ := ih w w'
      cases hs : splitLine (cs ++ '\n' :: w) with
      | none => rw [hs] at h1; simp at h1
      | some pr =>
        cases hs' : splitLine (cs ++ '\n' :: w') with
        | none => rw [hs, hs'] at h2; simp at h2
        | some pr' =>
          obtain ⟨l, r⟩ := pr
          obtain ⟨l', r'⟩ := pr'
          rw [hs, hs'] at h2
          simp at h2
          subst h2
          simp [splitLine, hc, hs, hs']

theorem jvmKey_cons : jvmKey = '\n' :: "DEFAULT_JVM_OPTS=".toList := by decide

theorem jvmKey_drop_no_newline {m : Nat} (hm : 1 ≤ m) : '\n' ∉ jvmKey.drop m := by
  intro h
  have h1 : jvmKey.drop m = List.drop (m - 1) (jvmKey.drop 1) := by
    rw [List.drop_drop]
    congr 1
    omega
  rw [h1] at h
  have h2 : '\n' ∈ jvmKey.drop 1 := List.drop_subset _ _ h
  exact absurd h2 (by decide)

theorem matchAt_of_shape {v : List Char} (r : List Char) (hv : v ≠ [])
    (hn : '\n' ∉ v) : matchAt (jvmKey ++ (v ++ '\n' :: r)) = some (v, r) := by
  have hl : leadsWith jvmKey (jvmKey ++ (v ++ '\n' :: r)) = true :=
    leadsWith_refl_append _ _
  have hd : (jvmKey ++ (v ++ '\n' :: r)).drop jvmKey.length = v ++ '\n' :: r :=
    List.drop_left _ _
  have he : v.isEmpty = false := by
    cases v with
    | nil => exact absurd rfl hv
    | cons a as => rfl
  rw [matchAt, if_pos hl, hd, splitLine_append hn]
  show (if v.isEmpty = true then none else some (v, r)) = some (v, r)
  rw [he]
  simp

theorem matchAt_sound {s v r : List Char} (h : matchAt s = some (v, r)) :
    s = jvmKey ++ (v ++ '\n' :: r) ∧ v ≠ [] ∧ '\n' ∉ v := by
  by_cases hl : leadsWith jvmKey s = true
  · rw [matchAt, if_pos hl] at h
    obtain ⟨t, ht⟩ := leadsWith_sound hl
    have hd : s.drop jvmKey.length = t := by rw [ht]; exact List.drop_left _ _
    rw [hd] at h
    cases hs : splitLine t with
    | none => rw [hs] at h; simp at h
    | some pr =>
      obtain ⟨l, rr⟩ := pr
      rw [hs] at h
      have h2 : (if l.isEmpty = true then none else some (l, rr)) = some (v, r) := h
      by_cases hle : l.isEmpty = true
      · rw [if_pos hle] at h2; simp at h2
      · rw [if_neg hle] at h2
        simp only [Option.some.injEq, Prod.mk.injEq] at h2
        obtain ⟨hlv, hrr⟩ := h2
        obtain ⟨he, hn⟩ := splitLine_sound hs
        subst hlv; subst hrr
        refine ⟨by rw [ht, he], ?_, hn⟩
        intro hnil
        rw [hnil] at hle
        exact hle rfl
  · rw [matchAt, if_neg hl] at h
    simp at h

/-- The anchored prefix test at a position strictly before the key sees the
    same characters whatever follows the key, so it is oblivious to the
    replacement of the captured value. -/
theorem leadsWith_stable (q Y Y' : List Char)
    (h : leadsWith jvmKey (q ++ (jvmKey ++ Y)) = true) :
    leadsWith jvmKey (q ++ (jvmKey ++ Y')) = true := by
  have htake : ∀ Z : List Char, (q ++ (jvmKey ++ Z)).take jvmKey.length =
      q.take jvmKey.length ++ jvmKey.take (jvmKey.length - q.length) := by
    intro Z
    have h0 : jvmKey.length - q.length - jvmKey.length = 0 := by omega
    rw [List.take_append_eq_append_take, List.take_append_eq_append_take, h0,
      List.take_zero, List.append_nil]
  rw [leadsWith_eq_take] at h ⊢
  rw [htake Y'] at *
  rw [htake Y] at h
  exact h

theorem drop_append_of_long {a : List Char} {n : Nat} (b : List Char)
    (h : a.length ≤ n) : (a ++ b).drop n = b.drop (n - a.length) := by
  rw [List.drop_append_eq_append_drop, List.drop_eq_nil_of_le h, List.nil_append]

theorem drop_append_of_short {a : List Char} {n : Nat} (b : List Char)
    (h : n ≤ a.length) : (a ++ b).drop n = a.drop n ++ b := by
  rw [List.drop_append_eq_append_drop, Nat.sub_eq_zero_of_le h, List.drop_zero]

/-- Key transfer lemma: a position where the pattern failed to match before
    the patch still fails to match after the captured value is replaced. -/
theorem matchAt_none_transfer {q v r : List Char} (v' r' : List Char)
    (hv : v ≠ []) (hnv : '\n' ∉ v)
    (h : matchAt (q ++ (jvmKey ++ (v ++ '\n' :: r))) = none) :
    matchAt (q ++ (jvmKey ++ (v' ++ '\n' :: r'))) = none := by
  by_cases hL : leadsWith jvmKey (q ++ (jvmKey ++ (v' ++ '\n' :: r'))) = true
  · have hLold : leadsWith jvmKey (q ++ (jvmKey ++ (v ++ '\n' :: r))) = true :=
      leadsWith_stable q _ _ hL
    by_cases hq : jvmKey.length ≤ q.length
    · -- the dropped tail still starts inside q, before the key's newline
      have hmz : jvmKey.length - q.length = 0 := by omega
      have hdold : (q ++ (jvmKey ++ (v ++ '\n' :: r))).drop jvmKey.length =
          q.drop jvmKey.length ++ ('\n' :: ("DEFAULT_JVM_OPTS=".toList ++ (v ++ '\n' :: r))) := by
        rw [List.drop_append_eq_append_drop, hmz, List.drop_zero, jvmKey_cons,
          List.cons_append]
      have hdnew : (q ++ (jvmKey ++ (v' ++ '\n' :: r'))).drop jvmKey.length =
          q.drop jvmKey.length ++ ('\n' :: ("DEFAULT_JVM_OPTS=".toList ++ (v' ++ '\n' :: r'))) := by
        rw [List.drop_append_eq_append_drop, hmz, List.drop_zero, jvmKey_cons,
          List.cons_append]
      obtain ⟨hsome, hfst⟩ := splitLine_stable (q.drop jvmKey.length)
        ("DEFAULT_JVM_OPTS=".toList ++ (v ++ '\n' :: r))
        ("DEFAULT_JVM_OPTS=".toList ++ (v' ++ '\n' :: r'))
      cases hso : splitLine (q.drop jvmKey.length ++
          '\n' :: ("DEFAULT_JVM_OPTS=".toList ++ (v ++ '\n' :: r))) with
      | none => rw [hso] at hsome; simp at hsome
      | some pr =>
        obtain ⟨L, R⟩ := pr
        cases hsn : splitLine (q.drop jvmKey.length ++
            '\n' :: ("DEFAULT_JVM_OPTS=".toList ++ (v' ++ '\n' :: r'))) with
        | none => rw [hso, hsn] at hfst; simp at hfst
        | some pr' =>
          obtain ⟨L', R'⟩ := pr'
          rw [hso, hsn] at hfst
          simp at hfst
          rw [matchAt, if_pos hLold, hdold, hso] at h
          have h2 : (if L.isEmpty = true then none else some (L, R)) = none := h
          have hLe : L.isEmpty = true := by
            by_cases hle : L.isEmpty = true
            · exact hle
            · rw [if_neg hle] at h2; simp at h2
          rw [matchAt, if_pos hL, hdnew, hsn]
          show (if L'.isEmpty = true then none else some (L', R')) = none
          rw [← hfst, hLe]
          simp
    · -- the position overlaps the key itself: the old content would have
      -- matched here, contradicting h
      exfalso
      have hqlt : q.length < jvmKey.length := by omega
      have hm1 : 1 ≤ jvmKey.length - q.length := by omega
      have hdold : (q ++ (jvmKey ++ (v ++ '\n' :: r))).drop jvmKey.length =
          jvmKey.drop (jvmKey.length - q.length) ++ (v ++ '\n' :: r) := by
        rw [drop_append_of_long _ (Nat.le_of_lt hqlt),
          drop_append_of_short _ (by omega)]
      have hnl : '\n' ∉ jvmKey.drop (jvmKey.length - q.length) ++ v := by
        intro hmem
        cases List.mem_append.mp hmem with
        | inl hx => exact jvmKey_drop_no_newline hm1 hx
        | inr hx => exact hnv hx
      have hne : jvmKey.drop (jvmKey.length - q.length) ++ v ≠ [] := by
        intro hnil
        exact hv (List.append_eq_nil.mp hnil).2
      have hsplit : splitLine (jvmKey.drop (jvmKey.length - q.length) ++ (v ++ '\n' :: r)) =
          some (jvmKey.drop (jvmKey.length - q.length) ++ v, r) := by
        rw [← List.append_assoc]
        exact splitLine_append hnl r
      rw [matchAt, if_pos hLold, hdold, hsplit] at h
      have h2 : (if (jvmKey.drop (jvmKey.length - q.length) ++ v).isEmpty = true then none
          else some (jvmKey.drop (jvmKey.length - q.length) ++ v, r)) = none := h
      have hie : (jvmKey.drop (jvmKey.length - q.length) ++ v).isEmpty = false := by
        cases hcase : jvmKey.drop (jvmKey.length - q.length) ++ v with
        | nil => exact absurd hcase hne
        | cons a as => rfl
      rw [hie] at h2
      simp at h2
  · rw [matchAt, if_neg hL]

theorem findJvm_sound : ∀ {s : List Char} {p v r : List Char},
    findJvm s = some (p, v, r) →
    s = p ++ (jvmKey ++ (v ++ '\n' :: r)) ∧ v ≠ [] ∧ '\n' ∉ v := by
  intro s
  induction s with
  | nil => intro p v r h; simp [findJvm] at h
  | cons c cs ih =>
    intro p v r h
    cases hm : matchAt (c :: cs) with
    | some pr =>
      obtain ⟨v₀, r₀⟩ := pr
      rw [findJvm, hm] at h
      simp only [Option.some.injEq, Prod.mk.injEq] at h
      obtain ⟨hp, hv, hr⟩ := h
      subst hv; subst hr
      obtain ⟨he, hvne, hnv⟩ := matchAt_sound hm
      rw [← hp]
      exact ⟨by rw [← he]; simp, hvne, hnv⟩
    | none =>
      rw [findJvm, hm] at h
      cases hf : findJvm cs with
      | none => rw [hf] at h; simp at h
      | some tri =>
        obtain ⟨p₀, v₀, r₀⟩ := tri
        rw [hf] at h
        simp only [Option.some.injEq, Prod.mk.injEq] at h
        obtain ⟨hp, hv, hr⟩ := h
        subst hv; subst hr
        obtain ⟨he, hvne, hnv⟩ := ih hf
        rw [← hp]
        exact ⟨by rw [he]; simp, hvne, hnv⟩

/-- Replacing the captured value (by any nonempty newline-free value) moves
    the leftmost match nowhere: the patched file matches again at the same
    position, now capturing the replaced value. -/
theorem findJvm_replace : ∀ (p : List Char) {v r : List Char} (v' r' : List Char),
    v' ≠ [] → '\n' ∉ v' →
    findJvm (p ++ (jvmKey ++ (v ++ '\n' :: r))) = some (p, v, r) →
    findJvm (p ++ (jvmKey ++ (v' ++ '\n' :: r'))) = some (p, v', r') := by
  intro p
  induction p with
  | nil =>
    intro v r v' r' hv' hnv' _
    rw [List.nil_append]
    have hm := matchAt_of_shape r' hv' hnv'
    rw [jvmKey_cons, List.cons_append] at hm ⊢
    rw [findJvm, hm]
  | cons c p' ih =>
    intro v r v' r' hv' hnv' h
    rw [List.cons_append] at h
    cases hm : matchAt (c :: (p' ++ (jvmKey ++ (v ++ '\n' :: r)))) with
    | some pr =>
      obtain ⟨v₀, r₀⟩ := pr
      rw [findJvm, hm] at h
      simp at h
    | none =>
      rw [findJvm, hm] at h
      cases hf : findJvm (p' ++ (jvmKey ++ (v ++ '\n' :: r))) with
      | none => rw [hf] at h; simp at h
      | some tri =>
        obtain ⟨p₀, v₀, r₀⟩ := tri
        rw [hf] at h
        simp only [Option.some.injEq, Prod.mk.injEq, List.cons.injEq, true_and] at h
        obtain ⟨hp, hv, hr⟩ := h
        rw [hp, hv, hr] at hf
        obtain ⟨-, hvne, hnv⟩ := findJvm_sound hf
        have hrec := ih v' r' hv' hnv' hf
        have hmold : matchAt ((c :: p') ++ (jvmKey ++ (v ++ '\n' :: r))) = none := by
          rw [List.cons_append]; exact hm
        have hmnew : matchAt ((c :: p') ++ (jvmKey ++ (v' ++ '\n' :: r'))) = none :=
          matchAt_none_transfer v' r' hvne hnv hmold
        rw [List.cons_append] at hmnew
        rw [List.cons_append, findJvm, hmnew, hrec]

/-! ### Facts about the assembled replacement value -/

theorem quoteFor_ne_newline (v : List Char) : quoteFor v ≠ '\n' := by
  unfold quoteFor
  split
  · decide
  · decide

theorem patchedValue_ne_nil (v : List Char) : patchedValue v ≠ [] := by
  intro h
  simp [patchedValue] at h

theorem patchedValue_no_newline {v : List Char} (hnv : '\n' ∉ v) :
    '\n' ∉ patchedValue v := by
  intro h
  unfold patchedValue at h
  rcases List.mem_append.mp h with h1 | h1
  · rcases List.mem_append.mp h1 with h2 | h2
    · exact hnv (List.take_subset _ _ h2)
    · rcases List.mem_cons.mp h2 with h3 | h3
      · exact quoteFor_ne_newline v h3.symm
      · rcases List.mem_append.mp h3 with h4 | h4
        · exact absurd h4 (by decide)
        · rw [List.mem_singleton] at h4
          exact quoteFor_ne_newline v h4.symm
  · rcases List.mem_cons.mp h1 with h2 | h2
    · exact absurd h2 (by decide)
    · exact hnv (List.drop_subset _ _ h2)

theorem dLocFull_split :
    dLocFull = dLoc ++ "/opt/spinnaker/config/,/root/.spinnaker/".toList := by
  decide

theorem containsSub_dLoc_patchedValue (v : List Char) :
    containsSub dLoc (patchedValue v) = true := by
  have hdec : patchedValue v =
      (v.take (quoteOffset v) ++ [quoteFor v]) ++
        (dLoc ++ ("/opt/spinnaker/config/,/root/.spinnaker/".toList ++
          (quoteFor v :: ' ' :: v.drop (quoteOffset v)))) := by
    simp [patchedValue, dLocFull_split, List.append_assoc]
  rw [hdec]
  exact containsSub_of_append _ _ _

theorem containsSub_dLoc_warning (v : List Char) :
    containsSub dLoc (jvmKey ++ patchedValue v ++ ['\n']) = true := by
  have hdec : jvmKey ++ patchedValue v ++ ['\n'] =
      (jvmKey ++ (v.take (quoteOffset v) ++ [quoteFor v])) ++
        (dLoc ++ ("/opt/spinnaker/config/,/root/.spinnaker/".toList ++
          (quoteFor v :: ' ' :: (v.drop (quoteOffset v) ++ ['\n'])))) := by
    simp [patchedValue, dLocFull_split, List.append_assoc]
  rw [hdec]
  exact containsSub_of_append _ _ _

/-- Shared unfolding: under the patch preconditions the call returns the
    patched content. -/
theorem inject_patched (opts : InstallOptions) {s content pre v rest : List Char}
    (hs : s ≠ deckName) (hf : findJvm content = some (pre, v, rest))
    (hd : containsSub dLoc v = false) :
    inject_spring_config_location opts s content =
      .patched (patchedContent pre v rest) := by
  simp [inject_spring_config_location, hs, hf, hd]

/-! ### C3: patching is idempotent -/

/-- C3: for content matching the option-assignment pattern with no existing
    directive (and a subsystem that is not the skipped UI one), one
    application rewrites the file; a second application on the result finds
    the directive, returns the warning outcome whose shown matched line
    contains the directive, and leaves the file content exactly as after
    the first application. -/
theorem inject_idempotent (opts : InstallOptions) (s content pre v rest : List Char)
    (hs : s ≠ deckName)
    (hf : findJvm content = some (pre, v, rest))
    (hd : containsSub dLoc v = false) :
    inject_spring_config_location opts s content =
      .patched (patchedContent pre v rest) ∧
    inject_spring_config_location opts s (patchedContent pre v rest) =
      .alreadyPatched (jvmKey ++ patchedValue v ++ ['\n']) ∧
    containsSub dLoc (jvmKey ++ patchedValue v ++ ['\n']) = true ∧
    patchFileResult opts s (patchedContent pre v rest) =
      some (patchedContent pre v rest) := by
  obtain ⟨hdecomp, hvne, hnv⟩ := findJvm_sound hf
  have hpc : patchedContent pre v rest =
      pre ++ (jvmKey ++ (patchedValue v ++ '\n' :: rest)) := by
    simp [patchedContent, List.append_assoc]
  have hf1 : findJvm (pre ++ (jvmKey ++ (v ++ '\n' :: rest))) = some (pre, v, rest) := by
    rw [← hdecomp]
    exact hf
  have hf2 : findJvm (pre ++ (jvmKey ++ (patchedValue v ++ '\n' :: rest))) =
      some (pre, patchedValue v, rest) :=
    findJvm_replace pre _ _ (patchedValue_ne_nil v) (patchedValue_no_newline hnv) hf1
  have hsecond : inject_spring_config_location opts s (patchedContent pre v rest) =
      .alreadyPatched (jvmKey ++ patchedValue v ++ ['\n']) := by
    rw [hpc]
    simp [inject_spring_config_location, hs, hf2, containsSub_dLoc_patchedValue]
  refine ⟨inject_patched opts hs hf hd, hsecond, containsSub_dLoc_warning v, ?_⟩
  simp [patchFileResult, hsecond]

/-- Witness for inject_idempotent on the sample single-quoted script. -/
theorem inject_idempotent_witness :
    inject_spring_config_location optsDefault "clouddriver".toList scriptSingleQuote =
      .patched (patchedContent scriptPre scriptVal scriptRest) ∧
    inject_spring_config_location optsDefault "clouddriver".toList
        (patchedContent scriptPre scriptVal scriptRest) =
      .alreadyPatched (jvmKey ++ patchedValue scriptVal ++ ['\n']) ∧
    containsSub dLoc (jvmKey ++ patchedValue scriptVal ++ ['\n']) = true ∧
    patchFileResult optsDefault "clouddriver".toList
        (patchedContent scriptPre scriptVal scriptRest) =
      some (patchedContent scriptPre scriptVal scriptRest) :=
  inject_idempotent optsDefault "clouddriver".toList scriptSingleQuote
    scriptPre scriptVal scriptRest (by decide) (by decide) (by decide)

/-! ### C4: quote character and existing text preserved -/

/-- C4: when the captured value starts with a quote character, the patched
    value starts with that same character, followed immediately inside the
    quoting by the inserted directive block and a separating space, followed
    by the rest of the original value verbatim. -/
theorem inject_preserves_quote (opts : InstallOptions)
    (s content pre rest t : List Char) (q : Char)
    (hs : s ≠ deckName)
    (hf : findJvm content = some (pre, q :: t, rest))
    (hd : containsSub dLoc (q :: t) = false)
    (hq : q = '\x27' ∨ q = '\x22') :
    inject_spring_config_location opts s content =
      .patched (patchedContent pre (q :: t) rest) ∧
    patchedValue (q :: t) =
      q :: ((quoteFor (q :: t) :: dLocFull) ++ [quoteFor (q :: t)] ++ ' ' :: t) := by
  have hoff : quoteOffset (q :: t) = 1 := by
    rcases hq with h | h
    · subst h; rfl
    · subst h; rfl
  refine ⟨inject_patched opts hs hf hd, ?_⟩
  simp [patchedValue, hoff]

/-- Witness for inject_preserves_quote on the sample single-quoted script. -/
theorem inject_preserves_quote_witness :
    inject_spring_config_location optsDefault "clouddriver".toList scriptSingleQuote =
      .patched (patchedContent scriptPre
        ('\x27' :: ("-Xmx1g".toList ++ ['\x27'])) scriptRest) ∧
    patchedValue ('\x27' :: ("-Xmx1g".toList ++ ['\x27'])) =
      '\x27' :: ((quoteFor ('\x27' :: ("-Xmx1g".toList ++ ['\x27'])) :: dLocFull) ++
        [quoteFor ('\x27' :: ("-Xmx1g".toList ++ ['\x27']))] ++
        ' ' :: ("-Xmx1g".toList ++ ['\x27'])) :=
  inject_preserves_quote optsDefault "clouddriver".toList scriptSingleQuote
    scriptPre scriptRest ("-Xmx1g".toList ++ ['\x27']) '\x27'
    (by decide) (by decide) (by decide) (Or.inl rfl)

/-! ### C7: the directive ignores an overridden installation root -/

/-- C7 counterexample: with the installation root overridden to /custom,
    the directive inserted into the launch script still names the default
    /opt/spinnaker/config, not the overridden config directory
    /custom/config that get_config_install_dir reports. -/
theorem inject_custom_root_counterexample :
    get_config_install_dir optsCustomRoot = "/custom/config".toList ∧
    inject_spring_config_location optsCustomRoot "clouddriver".toList scriptSingleQuote =
      .patched (patchedContent scriptPre scriptVal scriptRest) ∧
    containsSub (mkDirective (get_config_install_dir optsCustomRoot)
        (get_user_config_dir optsCustomRoot))
      (patchedContent scriptPre scriptVal scriptRest) = false ∧
    containsSub "/custom".toList (patchedContent scriptPre scriptVal scriptRest) = false ∧
    containsSub "/opt/spinnaker/config".toList
      (patchedContent scriptPre scriptVal scriptRest) = true := by
  decide

/-- C7 amended: whatever the options (in particular whatever installation
    root override they carry), a successful patch inserts the directive
    that lists the config directory under the DEFAULT installation root
    first and the user configuration directory second. -/
theorem inject_directive_fixed (opts : InstallOptions)
    (s content pre v rest : List Char)
    (hs : s ≠ deckName)
    (hf : findJvm content = some (pre, v, rest))
    (hd : containsSub dLoc v = false) :
    inject_spring_config_location opts s content =
      .patched (patchedContent pre v rest) ∧
    containsSub (mkDirective
        (get_config_install_dir { opts with spinnaker_dir := none })
        (get_user_config_dir opts))
      (patchedContent pre v rest) = true := by
  refine ⟨inject_patched opts hs hf hd, ?_⟩
  have hmk : mkDirective
      (get_config_install_dir { opts with spinnaker_dir := none })
      (get_user_config_dir opts) = dLocFull := rfl
  rw [hmk]
  have hdec : patchedContent pre v rest =
      (pre ++ (jvmKey ++ (v.take (quoteOffset v) ++ [quoteFor v]))) ++
        (dLocFull ++ ([quoteFor v] ++
          (' ' :: (v.drop (quoteOffset v) ++ ('\n' :: rest))))) := by
    simp [patchedContent, patchedValue, List.append_assoc]
  rw [hdec]
  exact containsSub_of_append _ _ _

/-- Witness for inject_directive_fixed with an overridden root. -/
theorem inject_directive_fixed_witness :
    inject_spring_config_location optsCustomRoot "clouddriver".toList scriptSingleQuote =
      .patched (patchedContent scriptPre scriptVal scriptRest) ∧
    containsSub (mkDirective
        (get_config_install_dir { optsCustomRoot with spinnaker_dir := none })
        (get_user_config_dir optsCustomRoot))
      (patchedContent scriptPre scriptVal scriptRest) = true :=
  inject_directive_fixed optsCustomRoot "clouddriver".toList scriptSingleQuote
    scriptPre scriptVal scriptRest (by decide) (by decide) (by decide)

end Spinnaker
